import Mathlib

/-!
Shallow embedding of the go-voting-blockchain core, translated from the Go
sources:
  * internal/models/models.go        (Vote, Poll, Block, Voter, PollResults)
  * internal/blockchain/blockchain.go (Blockchain and its operations)
  * the rate-limiter middleware       (RateLimiter.Allow and the tiers)
  * the blocks-listing handler        (Handler.GetBlocks)

Go `time.Time` values are modelled as `Int` (Unix seconds; `t.After u` is
`u < t` and `t.Before u` is `t < u`, both strict, exactly as in Go).
`sha256(json.Marshal(...))` in `calculateHash` is modelled as an abstract
function `calcHash : HashInput → String` of the five hashed fields
`{index, timestamp, data, previous_hash, nonce}`; the stored `Hash` field is
deliberately *not* part of `HashInput`, as in the source.  Go maps are
modelled as association lists; external nondeterminism (`time.Now()`,
`uuid.New()`, and the nonce/hash pair produced by the mining loop) is passed
in explicitly as arguments.
-/

namespace VotingBC

/-- models.go: `Vote` — a single ballot. -/
structure Vote where
  voteId : String
  pollId : String
  voterId : String
  choice : String
  timestamp : Int
  signature : String
deriving DecidableEq

/-- models.go: `Poll`. -/
structure Poll where
  pollId : String
  title : String
  description : String
  options : List String
  creator : String
  startTime : Int
  endTime : Int
  eligibleVoters : List String
  allowMultipleVotes : Bool
  isAnonymous : Bool
deriving DecidableEq

/-- models.go: `Voter`. -/
structure Voter where
  voterId : String
  name : String
  email : String
  department : String
  publicKey : String
  registeredAt : Int
deriving DecidableEq

/-- models.go `Poll.IsActive`:
`now.After(p.StartTime) && now.Before(p.EndTime)` — both comparisons strict. -/
def Poll.isActive (p : Poll) (now : Int) : Bool :=
  decide (p.startTime < now) && decide (now < p.endTime)

/-- The tagged block payload (`map[string]interface{}` with a `"type"` key in
the Go source; the four shapes actually constructed by blockchain.go). -/
inductive BlockData where
  | genesis
  | voterRegistration (voterId : String) (timestamp : Int)
  | pollCreation (poll : Poll)
  | votes (votes : List Vote)
deriving DecidableEq

/-- models.go: `Block`. -/
structure Block where
  index : Nat
  timestamp : Int
  data : BlockData
  previousHash : String
  nonce : Nat
  hash : String
deriving DecidableEq

/-- The five fields fed to `calculateHash` (blockchain.go:71-83): index,
timestamp.Unix(), data, previous_hash, nonce.  The stored hash is excluded. -/
structure HashInput where
  index : Nat
  timestamp : Int
  data : BlockData
  previousHash : String
  nonce : Nat
deriving DecidableEq

def Block.hashInput (b : Block) : HashInput :=
  ⟨b.index, b.timestamp, b.data, b.previousHash, b.nonce⟩

/-- The mining target `strings.Repeat("0", difficulty)` as a character list. -/
def powTarget (difficulty : Nat) : List Char :=
  List.replicate difficulty '0'

/-- Go `strings.HasPrefix(hash, target)` for the all-zeros target: the first
`difficulty` characters of the hash are all `'0'`. -/
def hasPowTarget (s : String) (difficulty : Nat) : Bool :=
  s.data.take difficulty == powTarget difficulty

/-- The outcome of the mining loop (blockchain.go `mineBlock`): a block
timestamp (`time.Now()` taken by the caller), the final nonce, and the hash
found for it.  The `Step` relation below constrains it by `minedOK`. -/
structure MineResult where
  timestamp : Int
  nonce : Nat
  hash : String
deriving DecidableEq

/-- Postcondition of `mineBlock`: the stored hash recomputes from the block's
fields and starts with `difficulty` zeros. -/
def minedOK (calcHash : HashInput → String) (difficulty : Nat) (b : Block) : Prop :=
  b.hash = calcHash b.hashInput ∧ hasPowTarget b.hash difficulty = true

/-- blockchain.go: the `Blockchain` struct.  Go maps become association
lists; the mutex is not modelled (all operations below are whole-state
functions, mirroring the code where every operation runs under the lock). -/
structure Blockchain where
  chain : List Block
  difficulty : Nat
  miningThreshold : Nat
  pendingVotes : List Vote
  polls : List (String × Poll)
  voterRegistry : List (String × Voter)
  voteRecords : List (String × List String)
deriving DecidableEq

/-- Go map read `m[k]` returning `(value, ok)`. -/
def lookup {α : Type} (m : List (String × α)) (k : String) : Option α :=
  (m.find? (fun kv => kv.1 == k)).map (fun kv => kv.2)

/-- Go map write `m[k] = v`. -/
def updateMap {α : Type} (m : List (String × α)) (k : String) (v : α) :
    List (String × α) :=
  match m with
  | [] => [(k, v)]
  | (k', v') :: rest =>
    if k' == k then (k, v) :: rest else (k', v') :: updateMap rest k v

/-- Read `bc.VoteRecords[pollID]` — a missing key reads as the empty slice. -/
def recordsFor (bc : Blockchain) (pollId : String) : List String :=
  (lookup bc.voteRecords pollId).getD []

/-- Read `bc.Chain[len(bc.Chain)-1].Hash`.  The chain always holds at least the
genesis block, so the empty-chain default is unreachable. -/
def lastHash (chain : List Block) : String :=
  match chain.getLast? with
  | some b => b.hash
  | none => ""

/-- The block built by `addBlock` (blockchain.go:241-255) before mining is
folded in: index `len(chain)`, the caller's payload, previous hash of the
last block, and the mining outcome's timestamp/nonce/hash. -/
def mkBlock (bc : Blockchain) (d : BlockData) (mr : MineResult) : Block :=
  { index := bc.chain.length
    timestamp := mr.timestamp
    data := d
    previousHash := lastHash bc.chain
    nonce := mr.nonce
    hash := mr.hash }

/-- blockchain.go `addBlock`: append the freshly mined block. -/
def addBlock (bc : Blockchain) (d : BlockData) (mr : MineResult) : Blockchain :=
  { bc with chain := bc.chain ++ [mkBlock bc d mr] }

/-- blockchain.go `NewBlockchain` + `createGenesisBlock`: genesis has index 0,
previous hash "0", genesis payload, and a mined nonce/hash. -/
def newBlockchain (difficulty : Nat) (mr : MineResult) : Blockchain :=
  { chain := [{ index := 0
                timestamp := mr.timestamp
                data := BlockData.genesis
                previousHash := "0"
                nonce := mr.nonce
                hash := mr.hash }]
    difficulty := difficulty
    miningThreshold := 5
    pendingVotes := []
    polls := []
    voterRegistry := []
    voteRecords := [] }

/-- blockchain.go `RegisterVoter`.  Results pair the (possibly updated) state
with the returned error (`none` = nil). -/
def registerVoter (bc : Blockchain) (voter : Voter) (now : Int)
    (mr : MineResult) : Blockchain × Option String :=
  match lookup bc.voterRegistry voter.voterId with
  | some _ => (bc, some "voter already registered")
  | none =>
    let voter' : Voter := { voter with registeredAt := now }
    let bc' : Blockchain :=
      { bc with voterRegistry := bc.voterRegistry ++ [(voter'.voterId, voter')] }
    (addBlock bc' (BlockData.voterRegistration voter'.voterId now) mr, none)

/-- blockchain.go `CreatePoll`.  `newId` stands for `models.GenerateID()`.
When no eligible voters are listed, the current registry key set is
snapshotted (Go map iteration order is arbitrary; membership is what the
code consumes, and we use registry order). -/
def createPoll (bc : Blockchain) (poll : Poll) (newId : String)
    (mr : MineResult) : Blockchain :=
  let poll' : Poll := { poll with pollId := newId }
  let poll'' : Poll :=
    if poll'.eligibleVoters.isEmpty then
      { poll' with eligibleVoters := bc.voterRegistry.map (fun kv => kv.1) }
    else poll'
  let bc' : Blockchain :=
    { bc with polls := bc.polls ++ [(poll''.pollId, poll'')]
              voteRecords := updateMap bc.voteRecords poll''.pollId [] }
  addBlock bc' (BlockData.pollCreation poll'') mr

/-- blockchain.go `minePendingVotes`: no-op on an empty buffer; otherwise
wrap the whole buffer as a `votes` payload, append a block, clear the
buffer. -/
def minePendingVotes (bc : Blockchain) (mr : MineResult) : Blockchain :=
  if bc.pendingVotes.isEmpty then bc
  else
    let bc' := addBlock bc (BlockData.votes bc.pendingVotes) mr
    { bc' with pendingVotes := [] }

/-- blockchain.go `CastVote` (lines 151-220), check for check in source
order.  `now` is `time.Now()` for the activeness check and the ballot
timestamp; `newVoteId` is `models.GenerateID()`; `mr` is the mining outcome
used only if the automatic flush fires.  The double-vote check walks
`VoteRecords[poll_id]` only when the poll forbids multiple votes. -/
def castVote (bc : Blockchain) (vote : Vote) (now : Int) (newVoteId : String)
    (mr : MineResult) : Blockchain × Option String :=
  match lookup bc.polls vote.pollId with
  | none => (bc, some "poll does not exist")
  | some poll =>
    if !(poll.isActive now) then (bc, some "poll is not active")
    else if (lookup bc.voterRegistry vote.voterId).isNone then
      (bc, some "voter not registered")
    else if !(poll.eligibleVoters.contains vote.voterId) then
      (bc, some "voter not eligible for this poll")
    else if !poll.allowMultipleVotes
        && (recordsFor bc vote.pollId).contains vote.voterId then
      (bc, some "voter has already voted in this poll")
    else if !(poll.options.contains vote.choice) then
      (bc, some "invalid voting choice")
    else
      -- vote.VoteID / vote.Timestamp are set, then — if the poll is
      -- anonymous — vote.VoterID is overwritten, and only AFTER that the
      -- (possibly rewritten) VoterID is appended to VoteRecords.
      let vote' : Vote := { vote with voteId := newVoteId, timestamp := now }
      let vote'' : Vote :=
        if poll.isAnonymous then { vote' with voterId := "anonymous" } else vote'
      let bc' : Blockchain :=
        { bc with
            pendingVotes := bc.pendingVotes ++ [vote'']
            voteRecords := updateMap bc.voteRecords vote''.pollId
              (recordsFor bc vote''.pollId ++ [vote''.voterId]) }
      if bc'.miningThreshold ≤ bc'.pendingVotes.length then
        (minePendingVotes bc' mr, none)
      else (bc', none)

/-- blockchain.go `MinePendingVotesManually`: returns the pre-flush pending
count and mines only when it is positive. -/
def minePendingVotesManually (bc : Blockchain) (mr : MineResult) :
    Blockchain × Nat :=
  let votesCount := bc.pendingVotes.length
  (if 0 < votesCount then minePendingVotes bc mr else bc, votesCount)

/-! Chain verification (blockchain.go `VerifyChain`, lines 343-370).

The Go loop runs for `i = 1 .. len(chain)-1` and checks, for each `i`, that
`chain[i].Hash` recomputes, that `chain[i].PreviousHash == chain[i-1].Hash`,
and that `chain[i].Hash` carries the difficulty prefix.  Block 0 is read
only through its stored `Hash` field. -/

def verifyFrom (calcHash : HashInput → String) (difficulty : Nat) :
    Block → List Block → Bool
  | _, [] => true
  | prev, b :: rest =>
    if !(b.hash == calcHash b.hashInput) then false
    else if !(b.previousHash == prev.hash) then false
    else if !(hasPowTarget b.hash difficulty) then false
    else verifyFrom calcHash difficulty b rest

/-- Go `Blockchain.VerifyChain` on a whole chain list: the loop starts at index
1, so an empty or single-block chain verifies trivially. -/
def verifyChainList (calcHash : HashInput → String) (difficulty : Nat)
    (chain : List Block) : Bool :=
  match chain with
  | [] => true
  | b0 :: rest => verifyFrom calcHash difficulty b0 rest

/-- blockchain.go `VerifyChain`, applied to the blockchain's own chain and
difficulty. -/
def Blockchain.verifyChain (bc : Blockchain) (calcHash : HashInput → String) :
    Bool :=
  verifyChainList calcHash bc.difficulty bc.chain

/-- The hash-chain invariant of the spec (I1/I2 restricted to i > 0, which is
what `VerifyChain` checks): every block after the first links to its
predecessor's stored hash, recomputes its own hash, and carries the
difficulty prefix. -/
def chainLinked (calcHash : HashInput → String) (difficulty : Nat)
    (chain : List Block) : Prop :=
  ∀ i x y, chain[i]? = some x → chain[i + 1]? = some y →
    y.previousHash = x.hash ∧ y.hash = calcHash y.hashInput ∧
      hasPowTarget y.hash difficulty = true

/-! Reachable states.

One honest API call ending in success or failure.  The Go mining loop's
nonce search is nondeterministic from the outside; each step therefore
carries an arbitrary `MineResult`, constrained so that any block the call
actually appended satisfies the mining postcondition (`minedOK`), exactly
what `mineBlock` guarantees on termination. -/

inductive Step (calcHash : HashInput → String) :
    Blockchain → Blockchain → Prop where
  | register (bc : Blockchain) (voter : Voter) (now : Int) (mr : MineResult)
      (hmine : ∀ b, (registerVoter bc voter now mr).1.chain = bc.chain ++ [b] →
        minedOK calcHash bc.difficulty b) :
      Step calcHash bc (registerVoter bc voter now mr).1
  | create (bc : Blockchain) (poll : Poll) (newId : String) (mr : MineResult)
      (hmine : ∀ b, (createPoll bc poll newId mr).chain = bc.chain ++ [b] →
        minedOK calcHash bc.difficulty b) :
      Step calcHash bc (createPoll bc poll newId mr)
  | cast (bc : Blockchain) (vote : Vote) (now : Int) (newVoteId : String)
      (mr : MineResult)
      (hmine : ∀ b,
        (castVote bc vote now newVoteId mr).1.chain = bc.chain ++ [b] →
        minedOK calcHash bc.difficulty b) :
      Step calcHash bc (castVote bc vote now newVoteId mr).1
  | mineManual (bc : Blockchain) (mr : MineResult)
      (hmine : ∀ b,
        (minePendingVotesManually bc mr).1.chain = bc.chain ++ [b] →
        minedOK calcHash bc.difficulty b) :
      Step calcHash bc (minePendingVotesManually bc mr).1

/-- States reachable from `NewBlockchain` (whose genesis block is itself
mined) by any sequence of API calls. -/
inductive Reachable (calcHash : HashInput → String) : Blockchain → Prop where
  | init (difficulty : Nat) (mr : MineResult)
      (hmine : ∀ b, (newBlockchain difficulty mr).chain = [b] →
        minedOK calcHash difficulty b) :
      Reachable calcHash (newBlockchain difficulty mr)
  | step (bc bc' : Blockchain) (hbc : Reachable calcHash bc)
      (hs : Step calcHash bc bc') : Reachable calcHash bc'

/-! Poll tallying (blockchain.go `GetPollResults`, lines 257-341).

The freshly-appended (typed) payload branch is modelled; the generic-map
branch (blocks rehydrated from JSON) runs the same per-ballot logic on the
decoded fields.  `voter_turnout` is a percentage formatted from a float in
Go; it is modelled as the underlying `(participation count, eligible count)`
pair, `none` standing for the `"N/A"` case. -/

/-- Go increment `results[choice]++`: a missing key reads as 0, so incrementing it
inserts 1. -/
def incr (m : List (String × Nat)) (k : String) : List (String × Nat) :=
  match m with
  | [] => [(k, 1)]
  | (k', v) :: rest =>
    if k' == k then (k', v + 1) :: rest else (k', v) :: incr rest k

/-- Per-ballot tally step: count the ballot iff its poll id matches. -/
def tallyVote (pollId : String) (acc : List (String × Nat) × Nat) (v : Vote) :
    List (String × Nat) × Nat :=
  if v.pollId == pollId then (incr acc.1 v.choice, acc.2 + 1) else acc

/-- Per-block tally step: only `votes` payloads contribute. -/
def tallyBlock (pollId : String) (acc : List (String × Nat) × Nat)
    (b : Block) : List (String × Nat) × Nat :=
  match b.data with
  | BlockData.votes vs => vs.foldl (tallyVote pollId) acc
  | _ => acc

/-- models.go `PollResults` (voter_turnout as the unformatted pair). -/
structure PollResults where
  pollId : String
  title : String
  status : String
  results : List (String × Nat)
  totalVotes : Nat
  voterTurnout : Option (Nat × Nat)
deriving DecidableEq

/-- blockchain.go `GetPollResults`: initialise one zero counter per option,
walk the whole chain, then the pending buffer. -/
def getPollResults (bc : Blockchain) (pollId : String) (now : Int) :
    Option PollResults :=
  match lookup bc.polls pollId with
  | none => none
  | some poll =>
    let init : List (String × Nat) × Nat :=
      (poll.options.map (fun o => (o, 0)), 0)
    let afterChain := bc.chain.foldl (tallyBlock pollId) init
    let final := bc.pendingVotes.foldl (tallyVote pollId) afterChain
    some { pollId := pollId
           title := poll.title
           status := if poll.isActive now then "active" else "closed"
           results := final.1
           totalVotes := final.2
           voterTurnout :=
             if 0 < poll.eligibleVoters.length then
               some ((recordsFor bc pollId).length, poll.eligibleVoters.length)
             else none }

/-- Sum of the per-option counters of a results map. -/
def sumValues (m : List (String × Nat)) : Nat :=
  (m.map (fun kv => kv.2)).sum

/-! Blocks listing (handlers `Handler.GetBlocks`).

The handler initialises `limit := 10`, reads the `limit` query parameter,
but the body of the `if l := c.Query("limit"); l != ""` branch is empty (it
holds only the comment "Parse limit if provided"), so the supplied value is
never parsed and the default is always used.  The parameter is kept as an
argument here to show it is ignored. -/
def getBlocks (bc : Blockchain) (_limitParam : Option String) : List Block :=
  let limit : Nat := 10
  let blocks := bc.chain
  if limit < blocks.length then blocks.drop (blocks.length - limit)
  else blocks

/-! Sliding-window rate limiter (middleware `RateLimiter.Allow`).

Per-client stored state is the list of accepted request timestamps.  `Allow`
drops entries not strictly newer than `now - window` (`reqTime.After(
windowStart)`), rejects if at least `rate` remain, and otherwise appends
`now`. -/

def allow (rate : Nat) (window : Int) (reqs : List Int) (now : Int) :
    List Int × Bool :=
  let valid := reqs.filter (fun t => decide (now - window < t))
  if rate ≤ valid.length then (valid, false)
  else (valid ++ [now], true)

/-- A sequence of `Allow` calls for one client, from stored state `reqs`:
the per-call decisions paired with their timestamps. -/
def limiterRun (rate : Nat) (window : Int) :
    List Int → List Int → List (Int × Bool)
  | _, [] => []
  | reqs, now :: rest =>
    let p := allow rate window reqs now
    (now, p.2) :: limiterRun rate window p.1 rest

/-- The timestamps of the accepted calls of a run. -/
def acceptedTimes (l : List (Int × Bool)) : List Int :=
  (l.filter (fun d => d.2)).map (fun d => d.1)

/-- The `StrictRateLimit` tier: `RateLimitByIP(5, time.Minute)`. -/
def strictRate : Nat := 5

/-- The `StrictRateLimit` window, in seconds. -/
def strictWindow : Int := 60

/-! Specification-side restatement of the cast-vote check order, written from
the spec's words ("Ordered checks (fail on first failure, each with a
distinct error kind)"), to be compared with `castVote`. -/

/-- The five post-lookup checks of spec 4.4.3, in the spec's order, each
paired with the error reported when it fails (`true` = check passes). -/
def orderedChecks (bc : Blockchain) (vote : Vote) (now : Int) (poll : Poll) :
    List (Bool × String) :=
  [ (poll.isActive now, "poll is not active"),
    ((lookup bc.voterRegistry vote.voterId).isSome, "voter not registered"),
    (poll.eligibleVoters.contains vote.voterId,
      "voter not eligible for this poll"),
    (poll.allowMultipleVotes
      || !((recordsFor bc vote.pollId).contains vote.voterId),
      "voter has already voted in this poll"),
    (poll.options.contains vote.choice, "invalid voting choice") ]

/-- Fail on the first failing check; pass when all hold. -/
def firstFailure : List (Bool × String) → Option String
  | [] => none
  | (ok, msg) :: rest => if ok then firstFailure rest else some msg

/-- The spec's cast-vote outcome: poll existence first, then the ordered
check list. -/
def castVoteSpecOutcome (bc : Blockchain) (vote : Vote) (now : Int) :
    Option String :=
  match lookup bc.polls vote.pollId with
  | none => some "poll does not exist"
  | some poll => firstFailure (orderedChecks bc vote now poll)

/-- Number of ballots for `pollId` carried by one block. -/
def blockMatchCount (pollId : String) (b : Block) : Nat :=
  match b.data with
  | BlockData.votes vs => (vs.filter (fun v => v.pollId == pollId)).length
  | _ => 0

/-! Concrete fixtures used by the evaluation theorems and witnesses below. -/

/-- A degenerate mining outcome, adequate at difficulty 0 for the constant
hash function `constHash`. -/
def mrZero : MineResult := ⟨0, 0, ""⟩

/-- A hash function under which every block is validly mined at
difficulty 0. -/
def constHash : HashInput → String := fun _ => ""

def voterAlice : Voter :=
  { voterId := "alice", name := "Alice", email := "alice@x.io",
    department := "", publicKey := "pk", registeredAt := 0 }

/-- An anonymous, single-vote poll open over `(0, 10)`. -/
def pollAnon : Poll :=
  { pollId := "", title := "Lang", description := "d",
    options := ["Go", "Rust"], creator := "c", startTime := 0, endTime := 10,
    eligibleVoters := ["alice"], allowMultipleVotes := false,
    isAnonymous := true }

/-- The poll as stored by `createPoll` under id "p1". -/
def pollStored : Poll := { pollAnon with pollId := "p1" }

/-- State after registering alice and creating the anonymous poll. -/
def bcAnon : Blockchain :=
  createPoll (registerVoter (newBlockchain 0 mrZero) voterAlice 0 mrZero).1
    pollAnon "p1" mrZero

def voteAlice : Vote :=
  { voteId := "", pollId := "p1", voterId := "alice", choice := "Go",
    timestamp := 0, signature := "" }

/-- A vote naming a poll id that does not exist. -/
def voteBad : Vote := { voteAlice with pollId := "nope" }

/-- State after one successful (anonymised) cast at time 6. -/
def bcV : Blockchain := (castVote bcAnon voteAlice 6 "vid1" mrZero).1

/-- The tally of "p1" in `bcV` at time 7. -/
def resX : PollResults :=
  { pollId := "p1", title := "Lang", status := "active",
    results := [("Go", 1), ("Rust", 0)], totalVotes := 1,
    voterTurnout := some (1, 1) }

/-- A ballot sitting in the pending buffer. -/
def pendingBallot : Vote :=
  { voteId := "vidp", pollId := "p1", voterId := "anonymous", choice := "Go",
    timestamp := 1, signature := "" }

/-- A state with one pending ballot. -/
def bcPend : Blockchain := { bcAnon with pendingVotes := [pendingBallot] }

/-- A state with four pending ballots: one more successful cast reaches the
default threshold of 5. -/
def bcFour : Blockchain :=
  { bcAnon with pendingVotes :=
      [pendingBallot, pendingBallot, pendingBallot, pendingBallot] }

/-- A trivial block used to build chains of given lengths. -/
def blockAt (i : Nat) : Block :=
  { index := i, timestamp := 0, data := BlockData.genesis, previousHash := "",
    nonce := 0, hash := "" }

/-- A state whose chain holds 12 blocks. -/
def bcTwelve : Blockchain :=
  { chain := (List.range 12).map blockAt, difficulty := 0,
    miningThreshold := 5, pendingVotes := [], polls := [], voterRegistry := [],
    voteRecords := [] }

/-- The freshly initialised blockchain at difficulty 0. -/
def bcInit : Blockchain := newBlockchain 0 mrZero

/-- Two genesis blocks differing in index, timestamp, payload and nonce but
sharing the stored hash, and a common tail. -/
def genesisA : Block :=
  { index := 0, timestamp := 0, data := BlockData.genesis, previousHash := "0",
    nonce := 0, hash := "" }

def genesisB : Block :=
  { index := 7, timestamp := 99, data := BlockData.votes [],
    previousHash := "0", nonce := 3, hash := "" }

def tailBlock : Block :=
  { index := 1, timestamp := 0, data := BlockData.genesis, previousHash := "",
    nonce := 0, hash := "" }

def bcG1 : Blockchain :=
  { chain := [genesisA, tailBlock], difficulty := 0, miningThreshold := 5,
    pendingVotes := [], polls := [], voterRegistry := [], voteRecords := [] }

def bcG2 : Blockchain :=
  { chain := [genesisB, tailBlock], difficulty := 0, miningThreshold := 5,
    pendingVotes := [], polls := [], voterRegistry := [], voteRecords := [] }

/-- Ten rapid-fire calls at the same instant. -/
def calls0 : List Int := [0, 0, 0, 0, 0, 0, 0, 0, 0, 0]

/-! Helper lemmas about chain verification. -/

lemma lastHash_cons_cons (a b : Block) (l : List Block) :
    lastHash (a :: b :: l) = lastHash (b :: l) := by
  simp [lastHash, List.getLast?]

lemma lastHash_singleton (a : Block) : lastHash [a] = a.hash := by
  simp [lastHash]

lemma verifyFrom_append_one (calcHash : HashInput → String) (difficulty : Nat)
    (b : Block) :
    ∀ (rest : List Block) (prev : Block),
      verifyFrom calcHash difficulty prev rest = true →
      b.previousHash = lastHash (prev :: rest) →
      b.hash = calcHash b.hashInput →
      hasPowTarget b.hash difficulty = true →
      verifyFrom calcHash difficulty prev (rest ++ [b]) = true := by
  intro rest
  induction rest with
  | nil =>
    intro prev _ hprev hhash hpow
    rw [lastHash_singleton] at hprev
    simp [verifyFrom, hprev, hpow, ← hhash]
  | cons x rs ih =>
    intro prev h hprev hhash hpow
    rw [lastHash_cons_cons] at hprev
    unfold verifyFrom at h ⊢
    split_ifs at h ⊢ <;> try simp_all
    all_goals exact ih x h hprev

lemma verifyChainList_append_one (calcHash : HashInput → String)
    (difficulty : Nat) (chain : List Block) (b : Block)
    (h : verifyChainList calcHash difficulty chain = true)
    (hprev : b.previousHash = lastHash chain)
    (hhash : b.hash = calcHash b.hashInput)
    (hpow : hasPowTarget b.hash difficulty = true) :
    verifyChainList calcHash difficulty (chain ++ [b]) = true := by
  cases chain with
  | nil => simp [verifyChainList, verifyFrom]
  | cons c0 rest =>
    exact verifyFrom_append_one calcHash difficulty b rest c0 h hprev hhash hpow

/-! Shape lemmas: each operation either leaves the chain alone or appends the
single block built by `addBlock` on the pre-state's chain. -/

lemma registerVoter_shape (bc : Blockchain) (voter : Voter) (now : Int)
    (mr : MineResult) :
    (registerVoter bc voter now mr).1.difficulty = bc.difficulty ∧
    ((registerVoter bc voter now mr).1.chain = bc.chain ∨
      ∃ d', (registerVoter bc voter now mr).1.chain =
        bc.chain ++ [mkBlock bc d' mr]) := by
  unfold registerVoter
  cases lookup bc.voterRegistry voter.voterId with
  | some _ => exact ⟨rfl, Or.inl rfl⟩
  | none => exact ⟨rfl, Or.inr ⟨_, rfl⟩⟩

lemma createPoll_shape (bc : Blockchain) (poll : Poll) (newId : String)
    (mr : MineResult) :
    (createPoll bc poll newId mr).difficulty = bc.difficulty ∧
    ((createPoll bc poll newId mr).chain = bc.chain ∨
      ∃ d', (createPoll bc poll newId mr).chain =
        bc.chain ++ [mkBlock bc d' mr]) := by
  exact ⟨rfl, Or.inr ⟨_, rfl⟩⟩

lemma minePendingVotes_shape (bc : Blockchain) (mr : MineResult) :
    (minePendingVotes bc mr).difficulty = bc.difficulty ∧
    ((minePendingVotes bc mr).chain = bc.chain ∨
      ∃ d', (minePendingVotes bc mr).chain = bc.chain ++ [mkBlock bc d' mr]) := by
  unfold minePendingVotes
  split_ifs with h
  · exact ⟨rfl, Or.inl rfl⟩
  · exact ⟨rfl, Or.inr ⟨_, rfl⟩⟩

lemma minePendingVotesManually_shape (bc : Blockchain) (mr : MineResult) :
    (minePendingVotesManually bc mr).1.difficulty = bc.difficulty ∧
    ((minePendingVotesManually bc mr).1.chain = bc.chain ∨
      ∃ d', (minePendingVotesManually bc mr).1.chain =
        bc.chain ++ [mkBlock bc d' mr]) := by
  unfold minePendingVotesManually
  dsimp only
  split_ifs with h
  · exact minePendingVotes_shape bc mr
  · exact ⟨rfl, Or.inl rfl⟩

lemma castVote_shape (bc : Blockchain) (vote : Vote) (now : Int)
    (newVoteId : String) (mr : MineResult) :
    (castVote bc vote now newVoteId mr).1.difficulty = bc.difficulty ∧
    ((castVote bc vote now newVoteId mr).1.chain = bc.chain ∨
      ∃ d', (castVote bc vote now newVoteId mr).1.chain =
        bc.chain ++ [mkBlock bc d' mr]) := by
  unfold castVote
  cases lookup bc.polls vote.pollId with
  | none => exact ⟨rfl, Or.inl rfl⟩
  | some poll =>
    simp only [apply_ite Prod.fst]
    split_ifs <;> first
      | exact ⟨rfl, Or.inl rfl⟩
      | exact minePendingVotes_shape _ mr

lemma step_shape (calcHash : HashInput → String) (bc bc' : Blockchain)
    (hs : Step calcHash bc bc') :
    bc'.difficulty = bc.difficulty ∧
    (bc'.chain = bc.chain ∨
      ∃ b, bc'.chain = bc.chain ++ [b] ∧ b.previousHash = lastHash bc.chain ∧
        minedOK calcHash bc.difficulty b) := by
  cases hs with
  | register voter now mr hmine =>
    obtain ⟨hd, hc⟩ := registerVoter_shape bc voter now mr
    refine ⟨hd, hc.imp id ?_⟩
    rintro ⟨d', hd'⟩
    exact ⟨_, hd', rfl, hmine _ hd'⟩
  | create poll newId mr hmine =>
    obtain ⟨hd, hc⟩ := createPoll_shape bc poll newId mr
    refine ⟨hd, hc.imp id ?_⟩
    rintro ⟨d', hd'⟩
    exact ⟨_, hd', rfl, hmine _ hd'⟩
  | cast vote now newVoteId mr hmine =>
    obtain ⟨hd, hc⟩ := castVote_shape bc vote now newVoteId mr
    refine ⟨hd, hc.imp id ?_⟩
    rintro ⟨d', hd'⟩
    exact ⟨_, hd', rfl, hmine _ hd'⟩
  | mineManual mr hmine =>
    obtain ⟨hd, hc⟩ := minePendingVotesManually_shape bc mr
    refine ⟨hd, hc.imp id ?_⟩
    rintro ⟨d', hd'⟩
    exact ⟨_, hd', rfl, hmine _ hd'⟩

lemma verify_step (calcHash : HashInput → String) (bc bc' : Blockchain)
    (hv : bc.verifyChain calcHash = true) (hs : Step calcHash bc bc') :
    bc'.verifyChain calcHash = true := by
  obtain ⟨hd, hc⟩ := step_shape calcHash bc bc' hs
  unfold Blockchain.verifyChain at hv ⊢
  rw [hd]
  cases hc with
  | inl h => rw [h]; exact hv
  | inr h =>
    obtain ⟨b, hb, hprev, hhash, hpow⟩ := h
    rw [hb]
    exact verifyChainList_append_one calcHash bc.difficulty bc.chain b hv hprev
      hhash hpow

lemma reachable_verify (calcHash : HashInput → String) (bc : Blockchain)
    (h : Reachable calcHash bc) : bc.verifyChain calcHash = true := by
  induction h with
  | init difficulty mr hmine => rfl
  | step bc bc' hbc hs ih => exact verify_step calcHash bc bc' ih hs

lemma verifyFrom_linked (calcHash : HashInput → String) (difficulty : Nat) :
    ∀ (rest : List Block) (prev : Block),
      verifyFrom calcHash difficulty prev rest = true →
      ∀ i x y, (prev :: rest)[i]? = some x → (prev :: rest)[i + 1]? = some y →
        y.previousHash = x.hash ∧ y.hash = calcHash y.hashInput ∧
          hasPowTarget y.hash difficulty = true := by
  intro rest
  induction rest with
  | nil =>
    intro prev _ i x y _ hy
    rcases i with _ | i <;> simp at hy
  | cons b rs ih =>
    intro prev h i x y hx hy
    unfold verifyFrom at h
    split_ifs at h with h1 h2 h3
    all_goals try (exfalso; simp at h)
    rcases i with _ | i
    · simp at hx hy
      subst hx
      subst hy
      simp at h1 h2 h3
      exact ⟨h2, h1, h3⟩
    · rw [List.getElem?_cons_succ] at hx
      rw [List.getElem?_cons_succ] at hy
      exact ih b h i x y hx hy

/-! Helper lemmas about tallying. -/

lemma sumValues_incr (m : List (String × Nat)) (k : String) :
    sumValues (incr m k) = sumValues m + 1 := by
  induction m with
  | nil => simp [incr, sumValues]
  | cons kv rest ih =>
    obtain ⟨k', v⟩ := kv
    by_cases h : k' == k <;> simp [incr, h, sumValues] at * <;> omega

lemma tallyVote_inv (pollId : String) (v : Vote)
    (acc : List (String × Nat) × Nat) (h : sumValues acc.1 = acc.2) :
    sumValues (tallyVote pollId acc v).1 = (tallyVote pollId acc v).2 := by
  unfold tallyVote
  split_ifs <;> simp [sumValues_incr, h]

lemma foldl_tallyVote_inv (pollId : String) (vs : List Vote) :
    ∀ acc, sumValues acc.1 = acc.2 →
      sumValues (vs.foldl (tallyVote pollId) acc).1 =
        (vs.foldl (tallyVote pollId) acc).2 := by
  induction vs with
  | nil => intro acc h; exact h
  | cons v rest ih => intro acc h; exact ih _ (tallyVote_inv pollId v acc h)

lemma foldl_tallyBlock_inv (pollId : String) (blocks : List Block) :
    ∀ acc, sumValues acc.1 = acc.2 →
      sumValues (blocks.foldl (tallyBlock pollId) acc).1 =
        (blocks.foldl (tallyBlock pollId) acc).2 := by
  induction blocks with
  | nil => intro acc h; exact h
  | cons b rest ih =>
    intro acc h
    refine ih _ ?_
    unfold tallyBlock
    cases b.data <;> simp [h, foldl_tallyVote_inv pollId _ acc h]

lemma foldl_tallyVote_count (pollId : String) (vs : List Vote) :
    ∀ acc : List (String × Nat) × Nat,
      (vs.foldl (tallyVote pollId) acc).2 =
        acc.2 + (vs.filter (fun v => v.pollId == pollId)).length := by
  induction vs with
  | nil => intro acc; simp
  | cons v rest ih =>
    intro acc
    by_cases h : v.pollId == pollId <;>
      simp [tallyVote, h, ih, Nat.add_assoc, Nat.add_comm 1]

lemma foldl_tallyBlock_count (pollId : String) (blocks : List Block) :
    ∀ acc : List (String × Nat) × Nat,
      (blocks.foldl (tallyBlock pollId) acc).2 =
        acc.2 + (blocks.map (blockMatchCount pollId)).sum := by
  induction blocks with
  | nil => intro acc; simp
  | cons b rest ih =>
    intro acc
    simp only [List.foldl_cons, List.map_cons, List.sum_cons, ih]
    unfold tallyBlock blockMatchCount
    cases b.data <;> simp [foldl_tallyVote_count] <;> omega

lemma sumValues_init (options : List String) :
    sumValues (options.map (fun o => (o, 0))) = 0 := by
  induction options with
  | nil => simp [sumValues]
  | cons o rest ih => simpa [sumValues] using ih

/-! Helper lemmas about the rate limiter. -/

lemma length_filter_mono {l : List Int} {p q : Int → Bool}
    (h : ∀ t, p t = true → q t = true) :
    (l.filter p).length ≤ (l.filter q).length := by
  induction l with
  | nil => simp
  | cons x xs ih =>
    by_cases hx : p x = true
    · simp [hx, h x hx]
      omega
    · simp only [List.filter_cons]
      rw [if_neg (by simp [hx])]
      by_cases hq : q x = true <;> simp [hq] <;> omega

lemma filter_window_shift (acc : List Int) (prev now window : Int)
    (hle : prev ≤ now) :
    (acc.filter (fun t => decide (prev - window < t))).filter
        (fun t => decide (now - window < t)) =
      acc.filter (fun t => decide (now - window < t)) := by
  rw [List.filter_filter]
  apply List.filter_congr
  intro t _
  by_cases h : now - window < t <;> simp [h] <;> omega

lemma limiter_aux (rate : Nat) (window : Int) (hw : 0 < window) :
    ∀ (calls : List Int) (prev : Int) (acc : List Int),
      List.Chain' (· ≤ ·) (prev :: calls) →
      (∀ a : Int,
        (acc.filter (fun t => decide (a < t) && decide (t ≤ a + window))).length
          ≤ rate) →
      ∀ a : Int,
        ((acc ++ acceptedTimes (limiterRun rate window
            (acc.filter (fun t => decide (prev - window < t))) calls)).filter
          (fun t => decide (a < t) && decide (t ≤ a + window))).length ≤ rate := by
  intro calls
  induction calls with
  | nil =>
    intro prev acc _ hacc a
    simpa [limiterRun, acceptedTimes] using hacc a
  | cons now rest ih =>
    intro prev acc hchain hacc a
    have hle : prev ≤ now := (List.chain'_cons.mp hchain).1
    have hchain' : List.Chain' (· ≤ ·) (now :: rest) :=
      (List.chain'_cons.mp hchain).2
    simp only [limiterRun, allow]
    rw [filter_window_shift acc prev now window hle]
    by_cases hfull :
        rate ≤ (acc.filter (fun t => decide (now - window < t))).length
    · simp only [hfull, if_true]
      simpa [acceptedTimes] using ih now acc hchain' hacc a
    · simp only [hfull, if_false]
      have hreqs : acc.filter (fun t => decide (now - window < t)) ++ [now] =
          (acc ++ [now]).filter (fun t => decide (now - window < t)) := by
        rw [List.filter_append]
        congr 1
        have hn : now - window < now := by omega
        simp [List.filter_singleton, hn]
      have hacc' : ∀ a : Int,
          ((acc ++ [now]).filter
            (fun t => decide (a < t) && decide (t ≤ a + window))).length
              ≤ rate := by
        intro a'
        rw [List.filter_append]
        by_cases hin : (decide (a' < now) && decide (now ≤ a' + window)) = true
        · have hsub : (acc.filter
              (fun t => decide (a' < t) && decide (t ≤ a' + window))).length ≤
              (acc.filter (fun t => decide (now - window < t))).length := by
            apply length_filter_mono
            intro t ht
            simp at ht hin ⊢
            omega
          simp [List.filter_singleton, hin]
          omega
        · rw [Bool.not_eq_true] at hin
          simp [List.filter_singleton, hin]
          simpa using hacc a'
      have := ih now (acc ++ [now]) hchain' hacc' a
      rw [hreqs]
      simpa [acceptedTimes, List.append_assoc] using this

/-! The claims. -/

/-- C1. The claim says an anonymous poll's participation set records the
voter's original id so a second cast is rejected as a double vote.  In the
code the `VoteRecords` append happens after `vote.VoterID` is overwritten
with "anonymous" (blockchain.go:207-212), so the participation set records
"anonymous" and a second cast by the same voter on a single-vote anonymous
poll is accepted: first cast succeeds, the participation set holds
["anonymous"], and the second cast also succeeds. -/
theorem anonymous_double_vote_accepted :
    (castVote bcAnon voteAlice 5 "vid1" mrZero).2 = none ∧
    recordsFor (castVote bcAnon voteAlice 5 "vid1" mrZero).1 "p1" =
      ["anonymous"] ∧
    (castVote (castVote bcAnon voteAlice 5 "vid1" mrZero).1 voteAlice 6 "vid2"
      mrZero).2 = none :=
  ⟨by decide, by decide, by decide⟩

/-- C2 counterexample. The claim says a vote cast exactly at the poll's
start_time passes the activeness check; on the poll open over `(0, 10)` a
cast at time 0 is rejected with "poll is not active" because
`time.Now().After(start)` is strict. -/
theorem vote_at_start_time_rejected :
    (castVote bcAnon voteAlice 0 "vid1" mrZero).2 =
      some "poll is not active" := by
  decide

/-- C2 amended. Casting passes the activeness check exactly when
`start < now < end` (both strict): the cast is rejected as poll-inactive iff
`now` is outside the open interval, so a vote exactly at start_time or at or
after end_time is rejected. -/
theorem activeness_window_strict (bc : Blockchain) (vote : Vote) (now : Int)
    (newVoteId : String) (mr : MineResult) (poll : Poll)
    (hl : lookup bc.polls vote.pollId = some poll) :
    (castVote bc vote now newVoteId mr).2 = some "poll is not active" ↔
      ¬(poll.startTime < now ∧ now < poll.endTime) := by
  unfold castVote
  simp only [hl, Poll.isActive]
  split_ifs with h <;>
    simp_all [apply_ite Prod.snd, Poll.isActive] <;> omega

/-- C2 witness: on the stored poll with window `(0, 10)`, a cast at time 0 is
rejected as inactive, matching `¬(0 < 0 ∧ 0 < 10)`. -/
theorem activeness_window_strict_witness :
    (castVote bcAnon voteAlice 0 "vid1" mrZero).2 =
        some "poll is not active" ↔
      ¬(pollStored.startTime < 0 ∧ (0 : Int) < pollStored.endTime) :=
  activeness_window_strict bcAnon voteAlice 0 "vid1" mrZero pollStored
    (by decide)

/-- C3. `CastVote` evaluates its checks in the fixed order — poll exists,
poll active, voter registered, voter eligible, no double vote (when multiple
votes are forbidden), choice valid — and returns the error of the first failing
check: its outcome always equals the spec-side first-failing-check function,
and the six error messages are pairwise distinct. -/
theorem castVote_checks_in_order (bc : Blockchain) (vote : Vote) (now : Int)
    (newVoteId : String) (mr : MineResult) :
    (castVote bc vote now newVoteId mr).2 = castVoteSpecOutcome bc vote now ∧
    List.Pairwise (· ≠ ·)
      ["poll does not exist", "poll is not active", "voter not registered",
       "voter not eligible for this poll",
       "voter has already voted in this poll", "invalid voting choice"] := by
  constructor
  · unfold castVote castVoteSpecOutcome orderedChecks
    cases lookup bc.polls vote.pollId with
    | none => rfl
    | some poll =>
      simp only [firstFailure, apply_ite Prod.snd]
      split_ifs <;> simp_all [recordsFor]
  · decide

/-- C4. Every state reachable from `NewBlockchain` by API calls satisfies the
hash-chain invariants: every block after the first links to its
predecessor's stored hash, recomputes its own hash from its fields, and
carries the difficulty zero-prefix — and consequently `VerifyChain` returns
true on every reachable state. -/
theorem reachable_chain_integrity (calcHash : HashInput → String)
    (bc : Blockchain) (h : Reachable calcHash bc) :
    chainLinked calcHash bc.difficulty bc.chain ∧
      bc.verifyChain calcHash = true := by
  have hv := reachable_verify calcHash bc h
  refine ⟨?_, hv⟩
  unfold Blockchain.verifyChain verifyChainList at hv
  intro i x y hx hy
  cases hc : bc.chain with
  | nil => simp [hc] at hx
  | cons c0 rest =>
    rw [hc] at hv hx hy
    exact verifyFrom_linked calcHash bc.difficulty rest c0 hv i x y hx hy

/-- C4 witness: the freshly initialised blockchain at difficulty 0 under the
constant hash function is reachable, linked, and verifies. -/
theorem reachable_chain_integrity_witness :
    chainLinked constHash bcInit.difficulty bcInit.chain ∧
      bcInit.verifyChain constHash = true :=
  reachable_chain_integrity constHash bcInit
    (Reachable.init 0 mrZero (by
      intro b hb
      simp [newBlockchain] at hb
      subst hb
      exact ⟨rfl, by decide⟩))

/-- C5. Flushing the pending buffer mines exactly the buffered ballots into
one `votes` block and empties the buffer; the threshold defaults to 5; a
successful cast that brings the pending count to at least the threshold
flushes automatically; and the manual flush on an empty buffer changes
nothing and returns count 0. -/
theorem flush_semantics (bc : Blockchain) (mr : MineResult) :
    (∀ d mr', (newBlockchain d mr').miningThreshold = 5) ∧
    (bc.pendingVotes = [] → minePendingVotesManually bc mr = (bc, 0)) ∧
    (bc.pendingVotes ≠ [] →
      (minePendingVotes bc mr).chain =
        bc.chain ++ [mkBlock bc (BlockData.votes bc.pendingVotes) mr] ∧
      (minePendingVotes bc mr).pendingVotes = []) ∧
    (∀ vote now newVoteId,
      (castVote bc vote now newVoteId mr).2 = none →
      bc.miningThreshold ≤ bc.pendingVotes.length + 1 →
      (castVote bc vote now newVoteId mr).1.pendingVotes = [] ∧
      ∃ ballot,
        (castVote bc vote now newVoteId mr).1.chain =
          bc.chain ++ [mkBlock bc
            (BlockData.votes (bc.pendingVotes ++ [ballot])) mr]) := by
  refine ⟨fun d mr' => rfl, ?_, ?_, ?_⟩
  · intro h
    simp [minePendingVotesManually, h]
  · intro h
    simp [minePendingVotes, List.isEmpty_iff, h, addBlock]
  · intro vote now newVoteId hok hthr
    unfold castVote at hok ⊢
    cases hl : lookup bc.polls vote.pollId with
    | none => simp [hl] at hok
    | some poll =>
      simp only [hl, apply_ite Prod.snd] at hok
      simp only [hl, apply_ite Prod.fst]
      split_ifs at hok with h1 h2 h3 h4 h5 <;> try simp_all
      all_goals rw [if_neg (fun hc => h4 hc.1 hc.2)]
      · exact ⟨by simp [minePendingVotes, addBlock, List.isEmpty_iff],
          { voteId := newVoteId, pollId := vote.pollId, voterId := "anonymous",
            choice := vote.choice, timestamp := now,
            signature := vote.signature },
          by simp [minePendingVotes, addBlock, List.isEmpty_iff, mkBlock,
            lastHash]⟩
      · exact ⟨by simp [minePendingVotes, addBlock, List.isEmpty_iff],
          { voteId := newVoteId, pollId := vote.pollId,
            voterId := vote.voterId, choice := vote.choice, timestamp := now,
            signature := vote.signature },
          by simp [minePendingVotes, addBlock, List.isEmpty_iff, mkBlock,
            lastHash]⟩

/-- C5 witness: manual flush of an empty buffer is a no-op returning 0; a
flush of one pending ballot appends exactly that ballot as a `votes` block
and clears the buffer; a successful cast on a buffer of 4 (threshold 5)
leaves an empty buffer behind. -/
theorem flush_semantics_witness :
    (minePendingVotesManually bcAnon mrZero = (bcAnon, 0)) ∧
    ((minePendingVotes bcPend mrZero).chain =
        bcPend.chain ++
          [mkBlock bcPend (BlockData.votes bcPend.pendingVotes) mrZero] ∧
      (minePendingVotes bcPend mrZero).pendingVotes = []) ∧
    (castVote bcFour voteAlice 5 "vid9" mrZero).1.pendingVotes = [] :=
  ⟨(flush_semantics bcAnon mrZero).2.1 (by decide),
    (flush_semantics bcPend mrZero).2.2.1 (by decide),
    ((flush_semantics bcFour mrZero).2.2.2 voteAlice 5 "vid9" (by decide)
      (by decide)).1⟩

/-- C6. For every existing poll, the tally walks every `votes` block of the
chain and then the pending buffer, counting each matching ballot once: the
returned total equals the number of matching ballots in the chain plus those
pending, and the sum of the per-option counters always equals the returned
total. -/
theorem tally_sum_eq_total (bc : Blockchain) (pollId : String) (now : Int)
    (r : PollResults) (h : getPollResults bc pollId now = some r) :
    sumValues r.results = r.totalVotes ∧
    r.totalVotes = (bc.chain.map (blockMatchCount pollId)).sum +
      (bc.pendingVotes.filter (fun v => v.pollId == pollId)).length := by
  unfold getPollResults at h
  cases hl : lookup bc.polls pollId with
  | none => simp [hl] at h
  | some poll =>
    simp only [hl, Option.some.injEq] at h
    subst h
    constructor
    · exact foldl_tallyVote_inv pollId _ _
        (foldl_tallyBlock_inv pollId _ _ (sumValues_init poll.options))
    · simp [foldl_tallyVote_count, foldl_tallyBlock_count]

/-- C6 witness: in the state with one pending anonymised ballot, the tally
of "p1" at time 7 is Go=1/Rust=0, total 1 (0 from the chain, 1 pending), and
the option counters sum to the total. -/
theorem tally_sum_eq_total_witness :
    getPollResults bcV "p1" 7 = some resX ∧
    sumValues resX.results = resX.totalVotes ∧
    resX.totalVotes = (bcV.chain.map (blockMatchCount "p1")).sum +
      (bcV.pendingVotes.filter (fun v => v.pollId == "p1")).length :=
  ⟨by decide, (tally_sum_eq_total bcV "p1" 7 resX (by decide)).1,
    (tally_sum_eq_total bcV "p1" 7 resX (by decide)).2⟩

/-- C7. A call is accepted exactly when fewer than `rate` stored (accepted)
timestamps fall within the preceding window, and for any monotone call
sequence the accepted calls of a run from an empty store never number more
than `rate` in any half-open window of length `window`; in particular under
the strict tier (5 per 60 s) no window of 60 seconds holds more than 5
accepted requests. -/
theorem rateLimiter_sliding_window (calls : List Int)
    (hsorted : List.Chain' (· ≤ ·) calls) :
    (∀ (rate : Nat) (window : Int) (reqs : List Int) (now : Int),
      (allow rate window reqs now).2 = true ↔
        (reqs.filter (fun t => decide (now - window < t))).length < rate) ∧
    (∀ (rate : Nat) (window : Int), 0 < window → ∀ a : Int,
      ((acceptedTimes (limiterRun rate window [] calls)).filter
        (fun t => decide (a < t) && decide (t ≤ a + window))).length ≤ rate) ∧
    (∀ a : Int,
      ((acceptedTimes (limiterRun strictRate strictWindow [] calls)).filter
        (fun t => decide (a < t) && decide (t ≤ a + strictWindow))).length ≤
          strictRate) := by
  have hbound : ∀ (rate : Nat) (window : Int), 0 < window → ∀ a : Int,
      ((acceptedTimes (limiterRun rate window [] calls)).filter
        (fun t => decide (a < t) && decide (t ≤ a + window))).length ≤ rate := by
    intro rate window hw a
    cases calls with
    | nil => simp [limiterRun, acceptedTimes]
    | cons c cs =>
      have hchain : List.Chain' (· ≤ ·) (c :: c :: cs) :=
        List.chain'_cons.mpr ⟨le_refl c, hsorted⟩
      have := limiter_aux rate window hw (c :: cs) c [] hchain (by simp) a
      simpa using this
  refine ⟨?_, hbound, hbound strictRate strictWindow (by decide)⟩
  intro rate window reqs now
  unfold allow
  dsimp only
  split_ifs with h <;> simp <;> omega

/-- C7 witness: ten rapid-fire calls at time 0; within the 60-second window
starting just before them, at most 5 are accepted. -/
theorem rateLimiter_sliding_window_witness :
    ((acceptedTimes (limiterRun strictRate strictWindow [] calls0)).filter
      (fun t => decide ((-1 : Int) < t) &&
        decide (t ≤ -1 + strictWindow))).length ≤ strictRate :=
  (rateLimiter_sliding_window calls0 (by simp [calls0, List.chain'_cons])).2.2 (-1)

/-- C8. The claim says the blocks listing returns the last N blocks for the
caller-supplied limit N; in the code the `limit` query parameter is read but
never parsed (the parsing branch is empty), so the default 10 is always
used: on a 12-block chain with limit 2 the handler returns 10 blocks, not
min(2, 12) = 2, and the result is identical to omitting the parameter. -/
theorem getBlocks_ignores_limit_param :
    (getBlocks bcTwelve (some "2")).length = 10 ∧
    (getBlocks bcTwelve (some "2")).length ≠ min 2 bcTwelve.chain.length ∧
    getBlocks bcTwelve (some "2") = getBlocks bcTwelve none :=
  ⟨by decide, by decide, by decide⟩

/-- C9. `CastVote` is atomic on failure: whenever it returns an error, the
whole blockchain state — chain, pending buffer, registries, and vote
records — is exactly the pre-call state. -/
theorem castVote_failure_is_pure (bc : Blockchain) (vote : Vote) (now : Int)
    (newVoteId : String) (mr : MineResult) (e : String)
    (h : (castVote bc vote now newVoteId mr).2 = some e) :
    (castVote bc vote now newVoteId mr).1 = bc := by
  unfold castVote at h ⊢
  cases hl : lookup bc.polls vote.pollId with
  | none => rfl
  | some poll =>
    simp only [hl] at h ⊢
    simp only [apply_ite Prod.snd, apply_ite Prod.fst] at h ⊢
    split_ifs at h ⊢ <;> simp_all

/-- C9 witness: a cast naming an unknown poll fails and leaves the state
untouched. -/
theorem castVote_failure_is_pure_witness :
    (castVote bcAnon voteBad 5 "vid1" mrZero).1 = bcAnon :=
  castVote_failure_is_pure bcAnon voteBad 5 "vid1" mrZero
    "poll does not exist" (by decide)

/-- C10. `VerifyChain` reads block 0 only through its stored hash: two
chains sharing a tail whose first blocks agree on the stored hash — however
much their index, timestamp, payload or nonce differ — verify identically,
so tampering with the genesis payload while keeping its recorded hash is
never detected. -/
theorem verifyChain_genesis_opaque (calcHash : HashInput → String)
    (bc bc' : Blockchain) (b b' : Block) (rest : List Block)
    (hc : bc.chain = b :: rest) (hc' : bc'.chain = b' :: rest)
    (hd : bc'.difficulty = bc.difficulty) (h : b.hash = b'.hash) :
    bc.verifyChain calcHash = bc'.verifyChain calcHash := by
  unfold Blockchain.verifyChain verifyChainList
  rw [hc, hc', hd]
  cases rest with
  | nil => rfl
  | cons x rs => simp only [verifyFrom, h]

/-- C10 witness: two two-block chains whose genesis blocks differ in index,
timestamp, payload and nonce but share the stored hash verify identically. -/
theorem verifyChain_genesis_opaque_witness :
    bcG1.verifyChain constHash = bcG2.verifyChain constHash :=
  verifyChain_genesis_opaque constHash bcG1 bcG2 genesisA genesisB
    [tailBlock] rfl rfl rfl rfl

end VotingBC
